import Mathlib

/-!
Verification development for the no-borders software-KVM repository.

The repository contains three variant scripts sharing one design:
`tinyKVM.py` (UDP discovery + newline-framed JSON link), `kvm.py`
(KVMSwitch: broadcast discovery, newline-buffered receive loop, toggle
control arbitration) and `KVM.py` (KVMServer/KVMClient: two client
slots, edge-of-screen switching, per-recv JSON parsing).

This file shallowly embeds the functions the claims depend on.  Pure
logic (byte parsing, JSON rendering/parsing, buffer splitting, state
transitions) is translated into executable Lean definitions; sockets,
threads and the GUI are abstracted into explicit inputs and output
event lists.
-/

/-! ## Characters and small scanning helpers -/

/-- The double-quote character (written via its code point). -/
def dq : Char := Char.ofNat 34

/-- The newline character (written via its code point). -/
def nlc : Char := Char.ofNat 10

/-- The opening-brace character (written via its code point). -/
def lbr : Char := Char.ofNat 123

/-- The closing-brace character (written via its code point). -/
def rbr : Char := Char.ofNat 125

/-- Decimal digit test on a character, by code point (48–57). -/
def isDigitC (c : Char) : Bool := decide (48 ≤ c.toNat) && decide (c.toNat ≤ 57)

/-- Numeric value of a digit character. -/
def digitVal (c : Char) : Nat := c.toNat - 48

/-- The decimal digit character for a value below ten. -/
def digitChar10 : Nat → Char
  | 0 => '0'
  | 1 => '1'
  | 2 => '2'
  | 3 => '3'
  | 4 => '4'
  | 5 => '5'
  | 6 => '6'
  | 7 => '7'
  | 8 => '8'
  | _ => '9'

/-- Decimal digit list of a natural number, most significant first;
fuel-based so that it reduces definitionally. -/
def natDigitsAux : Nat → Nat → List Char
  | 0, _ => []
  | fuel + 1, n =>
    if n < 10 then [digitChar10 n]
    else natDigitsAux fuel (n / 10) ++ [digitChar10 (n % 10)]

/-- Decimal digit list of a natural number, most significant first. -/
def natDigits (n : Nat) : List Char := natDigitsAux (n + 1) n

/-- Decimal rendering of an integer, as Python `json.dumps` prints it. -/
def intRender (i : Int) : List Char :=
  if i < 0 then '-' :: natDigits (-i).toNat else natDigits i.toNat

/-- Character predicate used when scanning a JSON string literal:
true while the closing double quote has not been reached. -/
def notQ (c : Char) : Bool := !(c == dq)

/-- Character predicate used when scanning for a newline:
true while the newline has not been reached. -/
def notNl (c : Char) : Bool := !(c == nlc)

/-- A character that every message string field is assumed to consist
of: printable ASCII, not a double quote and not a backslash, so that
Python `json.dumps` emits it verbatim. -/
def SafeChar (c : Char) : Prop :=
  32 ≤ c.toNat ∧ c.toNat ≤ 126 ∧ c.toNat ≠ 34 ∧ c.toNat ≠ 92

instance : DecidablePred SafeChar := fun c => by
  unfold SafeChar; infer_instance

/-- All characters of a string are safe. -/
def SafeStr (s : String) : Prop := ∀ c ∈ s.data, SafeChar c

instance : DecidablePred SafeStr := fun s =>
  List.decidableBAll _ s.data

/-! ## Flat JSON values, mirroring what `json.dumps` emits for the
wire messages of `tinyKVM.py` (`Link.send`, line 135: a flat object
with string, integer and boolean fields). -/

/-- A scalar JSON value appearing as a field of a wire message. -/
inductive JVal where
  | str (s : String)
  | int (n : Int)
  | jbool (b : Bool)
deriving DecidableEq

/-- A flat JSON object: the ordered field list of a wire record. -/
structure JObj where
  fields : List (String × JVal)
deriving DecidableEq

/-- The attribute that lists with no digit at the head have, so that a
digit scan stops exactly at the rendered number's end. -/
def NoDigitHead : List Char → Prop
  | [] => True
  | c :: _ => isDigitC c = false

/-- String-valued fields consist of safe characters. -/
def SafeVal : JVal → Prop
  | .str s => SafeStr s
  | _ => True

/-- Keys and string values of a field list are safe. -/
def SafeFields (fs : List (String × JVal)) : Prop :=
  ∀ kv ∈ fs, SafeStr kv.1 ∧ SafeVal kv.2

instance : DecidablePred SafeVal := fun v =>
  match v with
  | .str s => inferInstanceAs (Decidable (SafeStr s))
  | .int _ => inferInstanceAs (Decidable True)
  | .jbool _ => inferInstanceAs (Decidable True)

/-- Rendering of a scalar value, as `json.dumps` prints it. -/
def renderVal : JVal → List Char
  | .str s => dq :: s.data ++ [dq]
  | .int i => intRender i
  | .jbool true => ['t', 'r', 'u', 'e']
  | .jbool false => ['f', 'a', 'l', 's', 'e']

/-- Rendering of one `"key": value` pair, with the default
`json.dumps` key separator. -/
def renderPair (k : String) (v : JVal) : List Char :=
  dq :: k.data ++ dq :: ':' :: ' ' :: renderVal v

/-- Rendering of the field list, with the default `json.dumps` item
separator. -/
def renderFields : List (String × JVal) → List Char
  | [] => []
  | [(k, v)] => renderPair k v
  | (k, v) :: p :: rest => renderPair k v ++ ',' :: ' ' :: renderFields (p :: rest)

/-- Rendering of a whole flat object, exactly as `json.dumps` with
default separators prints it. -/
def renderObj (o : JObj) : List Char :=
  lbr :: renderFields o.fields ++ [rbr]

/-! ## A parser for the emitted subset, modelling `json.loads` on the
flat records produced by `Link.send` / `json.dumps`. -/

/-- Parse a decimal digit run into a number, leaving the rest. -/
def parseNum (l : List Char) : Option (Nat × List Char) :=
  let ds := l.takeWhile isDigitC
  if ds.isEmpty then none
  else some (ds.foldl (fun a c => 10 * a + digitVal c) 0, l.dropWhile isDigitC)

/-- Parse one scalar JSON value (string, integer or boolean). -/
def parseScalar (l : List Char) : Option (JVal × List Char) :=
  match l with
  | [] => none
  | c :: rest =>
    if c = dq then
      let s := rest.takeWhile notQ
      match rest.dropWhile notQ with
      | _ :: r => some (.str (String.mk s), r)
      | [] => none
    else if c = '-' then
      match parseNum rest with
      | some (n, r) => some (.int (-(n : Int)), r)
      | none => none
    else if isDigitC c then
      match parseNum (c :: rest) with
      | some (n, r) => some (.int ((n : Int)), r)
      | none => none
    else if c = 't' then
      match rest with
      | c1 :: c2 :: c3 :: r =>
        if c1 = 'r' then if c2 = 'u' then if c3 = 'e' then some (.jbool true, r)
          else none else none else none
      | _ => none
    else if c = 'f' then
      match rest with
      | c1 :: c2 :: c3 :: c4 :: r =>
        if c1 = 'a' then if c2 = 'l' then if c3 = 's' then if c4 = 'e' then
          some (.jbool false, r)
          else none else none else none else none
      | _ => none
    else none

/-- Parse the field list of a flat object, consuming the closing
brace; fuel-based (one unit of fuel per field). -/
def parseFields : Nat → List Char → Option (List (String × JVal) × List Char)
  | 0, _ => none
  | fuel + 1, l =>
    match l with
    | [] => none
    | c :: rest =>
      if c = dq then
        let key := rest.takeWhile notQ
        match rest.dropWhile notQ with
        | [] => none
        | _ :: rest2 =>
          match rest2 with
          | c3 :: c4 :: rest3 =>
            if c3 = ':' then if c4 = ' ' then
              match parseScalar rest3 with
              | none => none
              | some (v, rest4) =>
                match rest4 with
                | [] => none
                | c5 :: rest5 =>
                  if c5 = rbr then some ([(String.mk key, v)], rest5)
                  else if c5 = ',' then
                    match rest5 with
                    | c6 :: rest6 =>
                      if c6 = ' ' then
                        match parseFields fuel rest6 with
                        | some (fs, r) => some ((String.mk key, v) :: fs, r)
                        | none => none
                      else none
                    | [] => none
                  else none
            else none else none
          | _ => none
      else none

/-- Parse one flat JSON object, leaving the rest of the input. -/
def parseObj (l : List Char) : Option (JObj × List Char) :=
  match l with
  | [] => none
  | c :: rest =>
    if c = lbr then
      match rest with
      | [] => none
      | c2 :: rest2 =>
        if c2 = rbr then some (⟨[]⟩, rest2)
        else
          match parseFields rest.length rest with
          | some (fs, r) => some (⟨fs⟩, r)
          | none => none
    else none

/-- Field lookup in a decoded record, as the Python handlers index
`msg["key"]`. -/
def getField (k : String) : List (String × JVal) → Option JVal
  | [] => none
  | (k2, v) :: rest => if k2 = k then some v else getField k rest

/-! ## The newline-buffered receive loop.

`KVMSwitch.handle_communication` (kvm.py lines 264–283) and
`Link.recv_loop` (tinyKVM.py lines 139–156) both keep a byte buffer,
append each read, and repeatedly split off complete lines:
`while b"\n" in buf: line, buf = buf.split(b"\n", 1); process(line)`.
`drainLoop` is that loop (fuel-based: each iteration removes at least
the newline, so the buffer length is enough fuel); `drainBuf`
processes a buffer, returning the complete lines and the leftover
fragment. -/

def drainLoop : Nat → List Char → List (List Char) × List Char
  | 0, buf => ([], buf)
  | fuel + 1, buf =>
    if nlc ∈ buf then
      let line := buf.takeWhile notNl
      let rest := (buf.dropWhile notNl).tail
      let r := drainLoop fuel rest
      (line :: r.1, r.2)
    else ([], buf)

/-- Process a receive buffer: split off every complete
newline-terminated line, keep the trailing fragment. -/
def drainBuf (buf : List Char) : List (List Char) × List Char :=
  drainLoop buf.length buf

/-! ## Wire messages of `tinyKVM.py`.

`Link.send(typ, **kw)` (line 133) serializes `{"t": typ, **kw}` with
`json.dumps` and appends a newline; the forwarding callbacks
(`InputCapture._kp` .. `_ms`, lines 182–196) and `Node.toggle`
determine the exact keyword sets, and `InputInject.handle`
(lines 206–220) reads the fields back. -/

/-- The wire messages sent over a `Link`. -/
inductive Msg where
  | kp (key : String)
  | kr (key : String)
  | mm (x y : Int)
  | mc (x y : Int) (b : String) (p : Bool)
  | ms (x y dx dy : Int)
  | ctrl (has : Bool)
deriving DecidableEq

/-- The JSON object `{"t": typ, **kw}` built by `Link.send` for each
message, with the keyword order of the call sites. -/
def msgObj : Msg → JObj
  | .kp key => ⟨[("t", .str "kp"), ("key", .str key)]⟩
  | .kr key => ⟨[("t", .str "kr"), ("key", .str key)]⟩
  | .mm x y => ⟨[("t", .str "mm"), ("x", .int x), ("y", .int y)]⟩
  | .mc x y b p =>
    ⟨[("t", .str "mc"), ("x", .int x), ("y", .int y), ("b", .str b), ("p", .jbool p)]⟩
  | .ms x y dx dy =>
    ⟨[("t", .str "ms"), ("x", .int x), ("y", .int y), ("dx", .int dx), ("dy", .int dy)]⟩
  | .ctrl has => ⟨[("t", .str "ctrl"), ("has", .jbool has)]⟩

/-- `Link.send`: `json.dumps({"t": typ, **kw}) + "\n"`, encoded. -/
def encodeMsg (m : Msg) : List Char := renderObj (msgObj m) ++ [nlc]

/-- Dispatch on the decoded record, as `InputInject.handle` and
`Node` read `msg["t"]` and the per-tag fields. -/
def jsonToMsg (o : JObj) : Option Msg :=
  match getField "t" o.fields with
  | some (.str t) =>
    if t = "kp" then
      match getField "key" o.fields with
      | some (.str s) => some (.kp s)
      | _ => none
    else if t = "kr" then
      match getField "key" o.fields with
      | some (.str s) => some (.kr s)
      | _ => none
    else if t = "mm" then
      match getField "x" o.fields, getField "y" o.fields with
      | some (.int x), some (.int y) => some (.mm x y)
      | _, _ => none
    else if t = "mc" then
      match getField "x" o.fields, getField "y" o.fields,
            getField "b" o.fields, getField "p" o.fields with
      | some (.int x), some (.int y), some (.str b), some (.jbool p) =>
        some (.mc x y b p)
      | _, _, _, _ => none
    else if t = "ms" then
      match getField "x" o.fields, getField "y" o.fields,
            getField "dx" o.fields, getField "dy" o.fields with
      | some (.int x), some (.int y), some (.int dx), some (.int dy) =>
        some (.ms x y dx dy)
      | _, _, _, _ => none
    else if t = "ctrl" then
      match getField "has" o.fields with
      | some (.jbool h) => some (.ctrl h)
      | _ => none
    else none
  | _ => none

/-- Decode one framed line: parse the full line as JSON
(`json.loads(line)`) and dispatch on its tag. -/
def decodeLine (line : List Char) : Option Msg :=
  match parseObj line with
  | some (o, []) => jsonToMsg o
  | _ => none

/-- Decode a received byte string as `Link.recv_loop` does: split on
the newline, then parse the first complete record. -/
def decodeMsg (l : List Char) : Option Msg :=
  match drainBuf l with
  | (line :: _, _) => decodeLine line
  | ([], _) => none

/-- String fields of a message consist of safe characters, so that
the modelled `json.dumps` output (no escape sequences) is exact. -/
def SafeMsg : Msg → Prop
  | .kp key => SafeStr key
  | .kr key => SafeStr key
  | .mc _ _ b _ => SafeStr b
  | _ => True

instance : DecidablePred SafeMsg := fun m =>
  match m with
  | .kp key => inferInstanceAs (Decidable (SafeStr key))
  | .kr key => inferInstanceAs (Decidable (SafeStr key))
  | .mc _ _ b _ => inferInstanceAs (Decidable (SafeStr b))
  | .mm _ _ => inferInstanceAs (Decidable True)
  | .ms _ _ _ _ => inferInstanceAs (Decidable True)
  | .ctrl _ => inferInstanceAs (Decidable True)

/-! ## Discovery beacons of `tinyKVM.py`.

Sender (`Discovery._send_loop`, line 80):
`msg = MAGIC + self.own_id + struct.pack("!H", TCP_PORT) + TOKEN.encode()`
with `MAGIC = b"TINYKVM"` (7 bytes) and `TOKEN = "changeMe"`.
Receiver (`Discovery._listen`, lines 98–111): length check, magic
prefix check, `peer_id = r[8:12]`, self check
`ip == self.own_ip and peer_id == self.own_id`, token suffix check,
`tcp_port = struct.unpack("!H", r[12:14])[0]`, then
`self.peers[ip] = (tcp_port, peer_id)`.  Bytes are modelled as
naturals below 256, addresses as naturals. -/

namespace Tiny

/-- `MAGIC = b"TINYKVM"` as bytes. -/
def MAGICB : List Nat := [84, 73, 78, 89, 75, 86, 77]

/-- `TOKEN.encode()` for `TOKEN = "changeMe"` as bytes. -/
def TOKENB : List Nat := [99, 104, 97, 110, 103, 101, 77, 101]

/-- `struct.pack("!H", p)`: two big-endian bytes. -/
def pack16 (p : Nat) : List Nat := [p / 256 % 256, p % 256]

/-- The beacon datagram built by `Discovery._send_loop`. -/
def mkBeacon (ownId : List Nat) (tcpPort : Nat) : List Nat :=
  MAGICB ++ ownId ++ pack16 tcpPort ++ TOKENB

/-- `peer_id = r[8:12]` as the listener slices it. -/
def peerIdOf (r : List Nat) : List Nat := (r.drop 8).take 4

/-- `tcp_port = struct.unpack("!H", r[12:14])[0]` as the listener
decodes it. -/
def portOf (r : List Nat) : Nat := 256 * r.getD 12 0 + r.getD 13 0

/-- One iteration of `Discovery._listen` on a received datagram `r`
from source address `srcIp`: `none` when the datagram is discarded,
`some (tcp_port, peer_id)` for the record stored into
`self.peers[srcIp]`. -/
def listen_step (ownIp : Nat) (ownId : List Nat) (srcIp : Nat) (r : List Nat) :
    Option (Nat × List Nat) :=
  if r.length < MAGICB.length + 6 + TOKENB.length then none
  else if MAGICB.isPrefixOf r then
    if srcIp = ownIp ∧ peerIdOf r = ownId then none
    else if TOKENB.isSuffixOf r then some (portOf r, peerIdOf r)
    else none
  else none

end Tiny

/-! ## The `KVMServer` of `KVM.py`.

State fields from `KVMServer.__init__` (lines 483–531): `clients`
(list of sockets, modelled as naturals), `client_positions` (dict in
insertion order, modelled as an association list), `current_screen`
(`"server"`, `"right"` or `"left"`), `active_client`, and the screen
geometry.  Normalized coordinates (`x / self.screen_width` etc.) are
modelled as rationals. -/

namespace Srv

/-- The mutable state of a `KVMServer`. -/
structure St where
  clients : List Nat
  client_positions : List (Nat × String)
  current_screen : String
  active_client : Option Nat
  screen_width : Int
  screen_height : Int
deriving DecidableEq

/-- A wire message sent by the server to a client
(`json.dumps(data).encode()`, field values abstracted). -/
inductive SMsg where
  | switch (y : ℚ)
  | mouse_move (x y : ℚ)
  | mouse_click (x y : ℚ) (button : String) (pressed : Bool)
  | mouse_scroll (dx dy : Int)
  | key_press (key : String)
  | key_release (key : String)
  | return_to_server
deriving DecidableEq

/-- An observable socket action of the server. -/
inductive Out where
  | send (dst : Nat) (m : SMsg)
  | sendRaw (dst : Nat) (payload : String)
  | ack (dst : Nat) (w h : Int)
  | close (c : Nat)
deriving DecidableEq

/-- `KVMServer.send_to_active_client` (lines 747–753): sends only if
`self.active_client and self.active_client in self.clients`. -/
def send_to_active_client (s : St) (m : SMsg) : List Out :=
  match s.active_client with
  | some c => if c ∈ s.clients then [.send c m] else []
  | none => []

/-- `KVMServer.switch_to_client` (lines 733–745): find the first
client registered at `position`; if found, set `current_screen` and
`active_client`, then send the `switch` message with the normalized
`y` coordinate.  If no client occupies the slot, nothing happens. -/
def switch_to_client (s : St) (position : String) (_x y : Int) : St × List Out :=
  match s.client_positions.find? (fun p => p.2 == position) with
  | some cp =>
    let s2 : St := { s with current_screen := position, active_client := some cp.1 }
    (s2, send_to_active_client s2 (.switch ((y : ℚ) / (s.screen_height : ℚ))))
  | none => (s, [])

/-- `on_move` inside `KVMServer.capture_input` (lines 625–636): while
on the server screen, an edge position triggers a slot switch;
otherwise the move is forwarded normalized to the active client. -/
def on_move (s : St) (x y : Int) : St × List Out :=
  if s.current_screen = "server" then
    if s.screen_width - 1 ≤ x then switch_to_client s "right" 0 y
    else if x ≤ 0 then switch_to_client s "left" (s.screen_width - 1) y
    else (s, [])
  else
    (s, send_to_active_client s
      (.mouse_move ((x : ℚ) / (s.screen_width : ℚ)) ((y : ℚ) / (s.screen_height : ℚ))))

/-- The `finally` block of `KVMServer.handle_client` (lines 613–619):
on channel close or read failure the socket is removed from `clients`
and `client_positions` and closed.  `current_screen` and
`active_client` are not touched there. -/
def handle_client_disconnect (s : St) (c : Nat) : St :=
  if c ∈ s.clients then
    { s with clients := s.clients.erase c,
             client_positions := s.client_positions.filter (fun p => !(p.1 == c)) }
  else s

/-- The `return_to_server` message branch of `KVMServer.handle_client`
(lines 604–607): `current_screen = "server"; active_client = None`. -/
def process_return (s : St) : St :=
  { s with current_screen := "server", active_client := none }

/-- One accepted connection in `KVMServer.accept_clients`
(lines 558–592): with both slots full the server answers
`b"ERROR:MAX_CLIENTS"` and closes the socket; otherwise the client is
registered at its requested position (default `"right"`) and receives
the `connected` acknowledgment with the server geometry. -/
def accept_step (s : St) (n : Nat) (position? : Option String) : St × List Out :=
  if 2 ≤ s.clients.length then
    (s, [.sendRaw n "ERROR:MAX_CLIENTS", .close n])
  else
    let position := position?.getD "right"
    ({ s with client_positions := s.client_positions ++ [(n, position)],
              clients := s.clients ++ [n] },
     [.ack n s.screen_width s.screen_height])

end Srv

/-- Does a byte payload parse as a JSON record whose `status` field is
the string `REJECTED`?  This is the reply shape the specification
prescribes for a rejected handshake
(`handshake_ack{status=REJECTED}`); it is stated here from the
specification's words, to be compared with the reply the code sends. -/
def specHsAckRejected (payload : String) : Bool :=
  match parseObj payload.data with
  | some (o, []) =>
    match getField "status" o.fields with
    | some (.str s) => s = "REJECTED"
    | _ => false
  | _ => false

/-! ## The `KVMClient` of `KVM.py`.

`receive_commands` (lines 947–1005) parses each `recv` result as one
whole JSON document — there is no carry-over buffer — and any
exception (including a parse error on a partial read) breaks the
loop.  `handle_key` (lines 1007–1042) maps special key names through
a fixed table, injects single characters directly, and silently
returns on anything else. -/

namespace Cli

/-- A mouse button as the `pynput` provider names it. -/
inductive MButton where
  | left
  | right
  | middle
deriving DecidableEq

/-- The special keys of the client's `key_map`. -/
inductive KeyTok where
  | space | enter | tab | backspace | esc
  | shift | shift_r | ctrl | ctrl_r
  | alt | alt_r | up | down | left | right
deriving DecidableEq

/-- A call submitted to the input provider. -/
inductive Inj where
  | mousePress (b : MButton)
  | mouseRelease (b : MButton)
  | keyPress (k : KeyTok)
  | keyRelease (k : KeyTok)
  | charPress (s : String)
  | charRelease (s : String)
deriving DecidableEq

/-- Association-list lookup, as Python `key in dict` / `dict[key]`. -/
def lookupA {β : Type} (k : String) : List (String × β) → Option β
  | [] => none
  | (k2, v) :: rest => if k2 = k then some v else lookupA k rest

/-- ASCII lowering of a string, as Python `str.lower()` acts on the
button names involved. -/
def lowerStr (s : String) : String := String.mk (s.data.map Char.toLower)

/-- Python `pat in s` substring containment on character lists. -/
def hasSub (pat : List Char) : List Char → Bool
  | [] => pat.isEmpty
  | c :: rest => pat.isPrefixOf (c :: rest) || hasSub pat rest

/-- The button chosen by `receive_commands` for a `mouse_click`
(line 984): `Button.left if "left" in cmd.get("button", "").lower()
else Button.right`. -/
def button_of (bstr : String) : MButton :=
  if hasSub ("left".data) ((lowerStr bstr).data) then .left else .right

/-- The provider call made for a `mouse_click` message
(lines 983–988). -/
def mouse_click_inject (bstr : String) (pressed : Bool) : Inj :=
  if pressed then .mousePress (button_of bstr) else .mouseRelease (button_of bstr)

/-- The client's `key_map` (lines 1012–1028), in source order. -/
def key_map : List (String × KeyTok) :=
  [("Key.space", .space), ("Key.enter", .enter), ("Key.tab", .tab),
   ("Key.backspace", .backspace), ("Key.esc", .esc),
   ("Key.shift", .shift), ("Key.shift_r", .shift_r),
   ("Key.ctrl", .ctrl), ("Key.ctrl_r", .ctrl_r),
   ("Key.alt", .alt), ("Key.alt_r", .alt_r),
   ("Key.up", .up), ("Key.down", .down),
   ("Key.left", .left), ("Key.right", .right)]

/-- `KVMClient.handle_key` (lines 1007–1042): mapped special names
and single characters are injected; any other name returns without a
provider call, and no error escapes. -/
def handle_key (key_str : String) (is_press : Bool) : Option Inj :=
  match lookupA key_str key_map with
  | some k => some (if is_press then .keyPress k else .keyRelease k)
  | none =>
    if key_str.length = 1 then
      some (if is_press then .charPress key_str else .charRelease key_str)
    else none

/-- The unbuffered decode of `KVMClient.receive_commands`: each read
chunk is parsed as one whole JSON document
(`json.loads(data.decode())`); a failure raises, which breaks the
receive loop, so later chunks are never examined. -/
def recv_chunks : List (List Char) → List JObj
  | [] => []
  | chunk :: rest =>
    match parseObj chunk with
    | some (o, []) => o :: recv_chunks rest
    | _ => []

end Cli

/-! ## The `KVMSwitch` of `kvm.py` (toggle model).

`process_message` (lines 285–358) dispatches on `msg['type']`; the
`control_release` branch (lines 300–316) and the `mouse_click` branch
(lines 326–332) are embedded below.  GUI calls are modelled as the
boolean fields they set. -/

namespace Sw

/-- The control-relevant state of a `KVMSwitch` node. -/
structure St where
  mode : String
  has_control : Bool
  overlay : Bool
  topmost : Bool
deriving DecidableEq

/-- The `control_release` branch of `process_message`: on the server,
take control back, drop the overlay and raise the control window; on
the client, clear `has_control`. -/
def process_control_release (s : St) : St :=
  if s.mode = "server" then
    { s with has_control := true, overlay := false, topmost := true }
  else
    { s with has_control := false }

/-- Whether synthetic injection is enabled, as every input branch of
`process_message` tests it: `self.mode == "client" and
self.has_control`. -/
def injection_enabled (s : St) : Bool := s.mode == "client" && s.has_control

/-- The button chosen by the `mouse_click` branch (line 328):
`Button.left if msg['button'] == 'left' else Button.right`. -/
def button_of_sw (bstr : String) : Cli.MButton :=
  if bstr = "left" then .left else .right

end Sw

/-! ## Concrete states and experiment harnesses used by the claims -/

/-- The two-read split experiment of the partial-read property: feed
the encoding of `m` to the buffered receive loop as a first read of
`k` bytes and a second read of the remainder (prefixing the buffered
fragment, as the loop does), collecting all complete lines and the
final leftover. -/
def two_reads (m : Msg) (k : Nat) : List (List Char) × List Char :=
  let enc := encodeMsg m
  let r1 := drainBuf (enc.take k)
  let r2 := drainBuf (r1.2 ++ enc.drop k)
  (r1.1 ++ r2.1, r2.2)

/-- A server state in which the right client (socket 7) holds remote
control. -/
def c1state : Srv.St :=
  { clients := [7], client_positions := [(7, "right")],
    current_screen := "right", active_client := some 7,
    screen_width := 1920, screen_height := 1080 }

/-- A server state with both client slots occupied. -/
def c3state : Srv.St :=
  { clients := [1, 2], client_positions := [(1, "right"), (2, "left")],
    current_screen := "server", active_client := none,
    screen_width := 1920, screen_height := 1080 }

/-- A server state in local control with one client in the right
slot. -/
def c7state : Srv.St :=
  { clients := [4], client_positions := [(4, "right")],
    current_screen := "server", active_client := none,
    screen_width := 1920, screen_height := 1080 }

/-! ## Scanning and digit lemmas -/

theorem tw_append {α : Type} (p : α → Bool) (l r : List α)
    (h : ∀ c ∈ l, p c = true) : (l ++ r).takeWhile p = l ++ r.takeWhile p := by
  induction l with
  | nil => simp
  | cons a t ih =>
    have ha := h a (List.mem_cons_self a t)
    simp only [List.cons_append, List.takeWhile_cons, ha, if_true]
    exact congrArg (a :: ·) (ih fun c hc => h c (List.mem_cons_of_mem a hc))

theorem dw_append {α : Type} (p : α → Bool) (l r : List α)
    (h : ∀ c ∈ l, p c = true) : (l ++ r).dropWhile p = r.dropWhile p := by
  induction l with
  | nil => simp
  | cons a t ih =>
    have ha := h a (List.mem_cons_self a t)
    simp only [List.cons_append, List.dropWhile_cons, ha, if_true]
    exact ih fun c hc => h c (List.mem_cons_of_mem a hc)

theorem tw_stop {α : Type} {p : α → Bool} {c : α} (r : List α)
    (h : p c = false) : (c :: r).takeWhile p = [] := by
  simp [List.takeWhile_cons, h]

theorem dw_stop {α : Type} {p : α → Bool} {c : α} (r : List α)
    (h : p c = false) : (c :: r).dropWhile p = c :: r := by
  simp [List.dropWhile_cons, h]

theorem digitChar10_digit {k : Nat} (hk : k < 10) : isDigitC (digitChar10 k) = true := by
  interval_cases k <;> decide

theorem digitVal_digitChar10 {k : Nat} (hk : k < 10) : digitVal (digitChar10 k) = k := by
  interval_cases k <;> decide

theorem natDigitsAux_digits :
    ∀ (fuel n : Nat), ∀ c ∈ natDigitsAux fuel n, isDigitC c = true := by
  intro fuel
  induction fuel with
  | zero => intro n c hc; simp [natDigitsAux] at hc
  | succ f ih =>
    intro n c hc
    by_cases h : n < 10
    · simp [natDigitsAux, h] at hc
      exact hc ▸ digitChar10_digit h
    · simp only [natDigitsAux, h, if_false, List.mem_append, List.mem_singleton] at hc
      rcases hc with hc | hc
      · exact ih (n / 10) c hc
      · exact hc ▸ digitChar10_digit (Nat.mod_lt n (by omega))

theorem natDigits_digits (n : Nat) : ∀ c ∈ natDigits n, isDigitC c = true :=
  natDigitsAux_digits (n + 1) n

theorem natDigits_ne_nil (n : Nat) : natDigits n ≠ [] := by
  unfold natDigits natDigitsAux
  by_cases h : n < 10 <;> simp [h]

theorem lt_ten_pow (n : Nat) : n < 10 ^ (n + 1) := by
  induction n with
  | zero => decide
  | succ m ih =>
    have h1 : 10 ^ (m + 1 + 1) = 10 ^ (m + 1) * 10 := pow_succ 10 (m + 1)
    omega

theorem natDigitsAux_foldl :
    ∀ (fuel n : Nat), n < 10 ^ fuel →
    (natDigitsAux fuel n).foldl (fun a c => 10 * a + digitVal c) 0 = n := by
  intro fuel
  induction fuel with
  | zero => intro n hn; interval_cases n; rfl
  | succ f ih =>
    intro n hn
    by_cases h : n < 10
    · simp [natDigitsAux, h, digitVal_digitChar10 h]
    · have hdiv : n / 10 < 10 ^ f := by
        rw [Nat.div_lt_iff_lt_mul (by omega)]
        calc n < 10 ^ (f + 1) := hn
        _ = 10 ^ f * 10 := pow_succ 10 f
      simp only [natDigitsAux, h, if_false, List.foldl_append, ih (n / 10) hdiv,
        List.foldl_cons, List.foldl_nil, digitVal_digitChar10 (Nat.mod_lt n (by omega))]
      omega

theorem natDigits_foldl (n : Nat) :
    (natDigits n).foldl (fun a c => 10 * a + digitVal c) 0 = n :=
  natDigitsAux_foldl (n + 1) n (lt_ten_pow n)

theorem parseNum_natDigits (n : Nat) (rest : List Char) (h : NoDigitHead rest) :
    parseNum (natDigits n ++ rest) = some (n, rest) := by
  have htw : rest.takeWhile isDigitC = [] := by
    cases rest with
    | nil => rfl
    | cons c t => exact tw_stop t h
  have hdw : rest.dropWhile isDigitC = rest := by
    cases rest with
    | nil => rfl
    | cons c t => exact dw_stop t h
  have h1 : (natDigits n ++ rest).takeWhile isDigitC = natDigits n := by
    rw [tw_append isDigitC _ _ (natDigits_digits n), htw, List.append_nil]
  have h2 : (natDigits n ++ rest).dropWhile isDigitC = rest := by
    rw [dw_append isDigitC _ _ (natDigits_digits n), hdw]
  have h3 : (natDigits n).isEmpty = false := by
    cases hd : natDigits n with
    | nil => exact absurd hd (natDigits_ne_nil n)
    | cons c t => rfl
  simp only [parseNum, h1, h2, h3, Bool.false_eq_true, if_false, natDigits_foldl]

/-! ## Parser inversion for rendered scalars -/

theorem notQ_of_safe {c : Char} (h : SafeChar c) : notQ c = true := by
  have hne : c ≠ dq := by
    intro he
    subst he
    exact absurd (show dq.toNat = 34 from rfl) h.2.2.1
  simp [notQ, hne]

theorem notQ_dq : notQ dq = false := by decide

theorem isDigitC_facts {c : Char} (h : isDigitC c = true) :
    48 ≤ c.toNat ∧ c.toNat ≤ 57 := by
  simp only [isDigitC, Bool.and_eq_true, decide_eq_true_eq] at h
  exact h

theorem char_eq_of_toNat {c d : Char} (h : c = d) : c.toNat = d.toNat := by rw [h]

theorem parseScalar_str (s : String) (rest : List Char) (hs : SafeStr s) :
    parseScalar (renderVal (.str s) ++ rest) = some (.str s, rest) := by
  have hall : ∀ c ∈ s.data, notQ c = true := fun c hc => notQ_of_safe (hs c hc)
  have harr : renderVal (.str s) ++ rest = dq :: (s.data ++ dq :: rest) := by
    simp [renderVal]
  rw [harr]
  simp only [parseScalar, if_pos rfl]
  rw [tw_append notQ _ _ hall, tw_stop rest notQ_dq, List.append_nil]
  rw [dw_append notQ _ _ hall, dw_stop rest notQ_dq]
  simp

theorem parseScalar_int (i : Int) (rest : List Char) (hr : NoDigitHead rest) :
    parseScalar (renderVal (.int i) ++ rest) = some (.int i, rest) := by
  by_cases hneg : i < 0
  · have harr : renderVal (.int i) ++ rest = '-' :: (natDigits (-i).toNat ++ rest) := by
      simp [renderVal, intRender, hneg]
    rw [harr]
    have hdq : ('-' : Char) ≠ dq := by decide
    simp only [parseScalar, if_neg hdq, if_pos rfl,
      parseNum_natDigits ((-i).toNat) rest hr]
    show some (JVal.int (-((((-i).toNat : Nat) : Int))), rest) = some (.int i, rest)
    have h2 : -((((-i).toNat : Nat) : Int)) = i := by omega
    rw [h2]
  · have harr : renderVal (.int i) ++ rest = natDigits i.toNat ++ rest := by
      simp [renderVal, intRender, hneg]
    rw [harr]
    obtain ⟨c, cs, hc⟩ := List.exists_cons_of_ne_nil (natDigits_ne_nil i.toNat)
    have hcd : isDigitC c = true := by
      refine natDigits_digits i.toNat c ?_
      rw [hc]; exact List.mem_cons_self c cs
    obtain ⟨h48, h57⟩ := isDigitC_facts hcd
    have hdq : c ≠ dq := by
      intro he; have := char_eq_of_toNat he; simp [dq] at this; omega
    have hmin : c ≠ '-' := by
      intro he; have := char_eq_of_toNat he; simp at this; omega
    rw [hc, List.cons_append]
    simp only [parseScalar, if_neg hdq, if_neg hmin, hcd, if_pos rfl, if_true]
    rw [← List.cons_append, ← hc, parseNum_natDigits i.toNat rest hr]
    show some (JVal.int ((i.toNat : Nat) : Int), rest) = some (.int i, rest)
    have h2 : ((i.toNat : Nat) : Int) = i := by omega
    rw [h2]

theorem parseScalar_bool (b : Bool) (rest : List Char) :
    parseScalar (renderVal (.jbool b) ++ rest) = some (.jbool b, rest) := by
  cases b <;> rfl

theorem parseScalar_render (v : JVal) (rest : List Char) (hv : SafeVal v)
    (hr : NoDigitHead rest) :
    parseScalar (renderVal v ++ rest) = some (v, rest) := by
  cases v with
  | str s => exact parseScalar_str s rest hv
  | int i => exact parseScalar_int i rest hr
  | jbool b => exact parseScalar_bool b rest

theorem parseFields_last (fuel : Nat) (k : String) (v : JVal) (rest : List Char)
    (hk : SafeStr k) (hv : SafeVal v) :
    parseFields (fuel + 1) (renderPair k v ++ rbr :: rest) = some ([(k, v)], rest) := by
  have hall : ∀ c ∈ k.data, notQ c = true := fun c hc => notQ_of_safe (hk c hc)
  have harr : renderPair k v ++ rbr :: rest
      = dq :: (k.data ++ dq :: ':' :: ' ' :: (renderVal v ++ rbr :: rest)) := by
    simp [renderPair]
  have htw : (k.data ++ dq :: ':' :: ' ' :: (renderVal v ++ rbr :: rest)).takeWhile notQ
      = k.data := by
    rw [tw_append notQ _ _ hall, tw_stop _ notQ_dq, List.append_nil]
  have hdw : (k.data ++ dq :: ':' :: ' ' :: (renderVal v ++ rbr :: rest)).dropWhile notQ
      = dq :: ':' :: ' ' :: (renderVal v ++ rbr :: rest) := by
    rw [dw_append notQ _ _ hall]
    exact dw_stop _ notQ_dq
  have hps : parseScalar (renderVal v ++ rbr :: rest) = some (v, rbr :: rest) :=
    parseScalar_render v (rbr :: rest) hv (show isDigitC rbr = false by decide)
  rw [harr]
  simp only [parseFields, htw, hdw, hps]
  simp

theorem parseFields_step (fuel : Nat) (k : String) (v : JVal) (cont rest : List Char)
    (fs : List (String × JVal))
    (hk : SafeStr k) (hv : SafeVal v)
    (hcont : parseFields fuel cont = some (fs, rest)) :
    parseFields (fuel + 1) (renderPair k v ++ ',' :: ' ' :: cont)
      = some ((k, v) :: fs, rest) := by
  have hall : ∀ c ∈ k.data, notQ c = true := fun c hc => notQ_of_safe (hk c hc)
  have harr : renderPair k v ++ ',' :: ' ' :: cont
      = dq :: (k.data ++ dq :: ':' :: ' ' :: (renderVal v ++ ',' :: ' ' :: cont)) := by
    simp [renderPair]
  have htw : (k.data ++ dq :: ':' :: ' ' :: (renderVal v ++ ',' :: ' ' :: cont)).takeWhile notQ
      = k.data := by
    rw [tw_append notQ _ _ hall, tw_stop _ notQ_dq, List.append_nil]
  have hdw : (k.data ++ dq :: ':' :: ' ' :: (renderVal v ++ ',' :: ' ' :: cont)).dropWhile notQ
      = dq :: ':' :: ' ' :: (renderVal v ++ ',' :: ' ' :: cont) := by
    rw [dw_append notQ _ _ hall]
    exact dw_stop _ notQ_dq
  have hps : parseScalar (renderVal v ++ ',' :: ' ' :: cont) = some (v, ',' :: ' ' :: cont) :=
    parseScalar_render v (',' :: ' ' :: cont) hv (show isDigitC ',' = false by decide)
  have hcr : (',' : Char) ≠ rbr := by decide
  rw [harr]
  simp only [parseFields, htw, hdw, hps, if_neg hcr, hcont]
  simp

theorem parseFields_render :
    ∀ (fs : List (String × JVal)) (rest : List Char) (fuel : Nat),
    SafeFields fs → fs ≠ [] → fs.length ≤ fuel →
    parseFields fuel (renderFields fs ++ rbr :: rest) = some (fs, rest) := by
  intro fs
  induction fs with
  | nil => intro rest fuel _ hne _; exact absurd rfl hne
  | cons kv tl ih =>
    intro rest fuel hsafe _ hlen
    obtain ⟨f, rfl⟩ : ∃ f, fuel = f + 1 := by
      cases fuel with
      | zero => simp at hlen
      | succ f => exact ⟨f, rfl⟩
    obtain ⟨k, v⟩ := kv
    have hk : SafeStr k := (hsafe (k, v) (List.mem_cons_self _ _)).1
    have hv : SafeVal v := (hsafe (k, v) (List.mem_cons_self _ _)).2
    cases tl with
    | nil =>
      simp only [renderFields]
      exact parseFields_last f k v rest hk hv
    | cons p tl2 =>
      simp only [renderFields, List.append_assoc, List.cons_append]
      have hcont : parseFields f (renderFields (p :: tl2) ++ rbr :: rest)
          = some (p :: tl2, rest) := by
        refine ih rest f ?_ (by simp) ?_
        · intro kv2 hkv2
          exact hsafe kv2 (List.mem_cons_of_mem _ hkv2)
        · simp at hlen ⊢
          omega
      have := parseFields_step f k v (renderFields (p :: tl2) ++ rbr :: rest) rest
        (p :: tl2) hk hv hcont
      simpa using this

theorem renderFields_head (kv : String × JVal) (tl : List (String × JVal)) :
    ∃ X, renderFields (kv :: tl) = dq :: X := by
  obtain ⟨k, v⟩ := kv
  cases tl with
  | nil => exact ⟨k.data ++ dq :: ':' :: ' ' :: renderVal v, by simp [renderFields, renderPair]⟩
  | cons p tl2 =>
    exact ⟨k.data ++ dq :: ':' :: ' ' :: renderVal v ++ ',' :: ' ' :: renderFields (p :: tl2),
      by simp [renderFields, renderPair]⟩

theorem renderFields_len (fs : List (String × JVal)) :
    fs.length ≤ (renderFields fs).length := by
  induction fs with
  | nil => simp [renderFields]
  | cons kv tl ih =>
    obtain ⟨k, v⟩ := kv
    cases tl with
    | nil => simp [renderFields, renderPair]
    | cons p tl2 =>
      have h1 : renderFields ((k, v) :: p :: tl2)
          = renderPair k v ++ ',' :: ' ' :: renderFields (p :: tl2) := rfl
      have h2 : 1 ≤ (renderPair k v).length := by simp [renderPair]
      rw [h1]
      simp only [List.length_append, List.length_cons]
      simp only [List.length_cons] at ih ⊢
      omega

theorem parseObj_render (fs : List (String × JVal)) (rest : List Char)
    (hsafe : SafeFields fs) :
    parseObj (renderObj ⟨fs⟩ ++ rest) = some (⟨fs⟩, rest) := by
  have harr : renderObj ⟨fs⟩ ++ rest = lbr :: (renderFields fs ++ rbr :: rest) := by
    simp [renderObj]
  rw [harr]
  cases fs with
  | nil =>
    simp [parseObj, renderFields]
  | cons kv tl =>
    obtain ⟨X, hX⟩ := renderFields_head kv tl
    have hne : dq ≠ rbr := by decide
    have hlen : (kv :: tl).length ≤ (renderFields (kv :: tl) ++ rbr :: rest).length := by
      have h0 := renderFields_len (kv :: tl)
      simp only [List.length_cons] at h0
      simp only [List.length_append, List.length_cons]
      omega
    have hpf := parseFields_render (kv :: tl) rest
      (renderFields (kv :: tl) ++ rbr :: rest).length hsafe (by simp) hlen
    have hform : renderFields (kv :: tl) ++ rbr :: rest = dq :: (X ++ rbr :: rest) := by
      rw [hX]; simp
    rw [hform] at hpf
    simp only [List.length_cons, List.length_append] at hpf
    simp [parseObj, hform, hne, hpf]

/-! ## No newline appears in a rendered record -/

theorem renderVal_ge32 (v : JVal) (hv : SafeVal v) :
    ∀ c ∈ renderVal v, 32 ≤ c.toNat := by
  cases v with
  | str s =>
    intro c hc
    have h2 : c = dq ∨ c ∈ s.data := by
      simp only [renderVal, List.mem_cons, List.mem_append, List.mem_singleton] at hc
      tauto
    rcases h2 with rfl | hc2
    · decide
    · exact (hv c hc2).1
  | int i =>
    intro c hc
    simp only [renderVal, intRender] at hc
    have hdig : ∀ d, c ∈ natDigits d → 32 ≤ c.toNat := by
      intro d hd
      have := isDigitC_facts (natDigits_digits d c hd)
      omega
    by_cases hneg : i < 0
    · simp only [if_pos hneg, List.mem_cons] at hc
      rcases hc with rfl | hc
      · decide
      · exact hdig _ hc
    · simp only [if_neg hneg] at hc
      exact hdig _ hc
  | jbool b =>
    intro c hc
    cases b <;> simp only [renderVal, List.mem_cons, List.not_mem_nil, or_false] at hc <;>
      rcases hc with rfl | rfl | rfl | rfl | rfl <;> decide

theorem renderPair_ge32 (k : String) (v : JVal) (hk : SafeStr k) (hv : SafeVal v) :
    ∀ c ∈ renderPair k v, 32 ≤ c.toNat := by
  intro c hc
  have h2 : c = dq ∨ c = ':' ∨ c = ' ' ∨ c ∈ k.data ∨ c ∈ renderVal v := by
    simp only [renderPair, List.mem_cons, List.mem_append] at hc
    tauto
  rcases h2 with rfl | rfl | rfl | hc2 | hc2
  · decide
  · decide
  · decide
  · exact (hk c hc2).1
  · exact renderVal_ge32 v hv c hc2

theorem renderFields_ge32 (fs : List (String × JVal)) (hsafe : SafeFields fs) :
    ∀ c ∈ renderFields fs, 32 ≤ c.toNat := by
  induction fs with
  | nil => intro c hc; simp [renderFields] at hc
  | cons kv tl ih =>
    obtain ⟨k, v⟩ := kv
    have hk : SafeStr k := (hsafe (k, v) (List.mem_cons_self _ _)).1
    have hv : SafeVal v := (hsafe (k, v) (List.mem_cons_self _ _)).2
    cases tl with
    | nil =>
      intro c hc
      exact renderPair_ge32 k v hk hv c hc
    | cons p tl2 =>
      intro c hc
      have h1 : renderFields ((k, v) :: p :: tl2)
          = renderPair k v ++ ',' :: ' ' :: renderFields (p :: tl2) := rfl
      rw [h1] at hc
      simp only [List.mem_append, List.mem_cons] at hc
      rcases hc with hc | rfl | rfl | hc
      · exact renderPair_ge32 k v hk hv c hc
      · decide
      · decide
      · exact ih (fun kv2 hkv2 => hsafe kv2 (List.mem_cons_of_mem _ hkv2)) c hc

theorem nl_not_mem_renderObj (fs : List (String × JVal)) (hsafe : SafeFields fs) :
    nlc ∉ renderObj ⟨fs⟩ := by
  intro hmem
  have h2 : nlc = lbr ∨ nlc = rbr ∨ nlc ∈ renderFields fs := by
    simp only [renderObj, List.mem_cons, List.mem_append, List.mem_singleton] at hmem
    tauto
  rcases h2 with h | h | h
  · exact absurd (congrArg Char.toNat h) (by decide)
  · exact absurd (congrArg Char.toNat h) (by decide)
  · have := renderFields_ge32 fs hsafe nlc h
    have h10 : nlc.toNat = 10 := rfl
    omega

/-! ## Properties of the newline-buffered receive loop -/

theorem drainLoop_no_nl (buf : List Char) (h : nlc ∉ buf) :
    ∀ fuel, drainLoop fuel buf = ([], buf) := by
  intro fuel
  cases fuel with
  | zero => rfl
  | succ f => simp [drainLoop, h]

theorem split_at_nl (buf : List Char) (h : nlc ∈ buf) :
    ∃ line rest, buf = line ++ nlc :: rest ∧ nlc ∉ line := by
  induction buf with
  | nil => simp at h
  | cons c t ih =>
    by_cases hc : c = nlc
    · exact ⟨[], t, by rw [hc]; rfl, by simp⟩
    · have ht : nlc ∈ t := by
        rcases List.mem_cons.mp h with h1 | h1
        · exact absurd h1.symm hc
        · exact h1
      obtain ⟨l, r, h1, h2⟩ := ih ht
      refine ⟨c :: l, r, by rw [h1]; rfl, ?_⟩
      intro hmem
      rcases List.mem_cons.mp hmem with h3 | h3
      · exact hc h3.symm
      · exact h2 h3

theorem notNl_of_not_mem {line : List Char} (h : nlc ∉ line) :
    ∀ c ∈ line, notNl c = true := by
  intro c hc
  have : c ≠ nlc := fun he => h (he ▸ hc)
  simp [notNl, this]

theorem drainLoop_split (line rest : List Char) (hn : nlc ∉ line) (fuel : Nat) :
    drainLoop (fuel + 1) (line ++ nlc :: rest)
      = ((line :: (drainLoop fuel rest).1), (drainLoop fuel rest).2) := by
  have hmem : nlc ∈ line ++ nlc :: rest := by
    simp
  have htw : (line ++ nlc :: rest).takeWhile notNl = line := by
    rw [tw_append notNl _ _ (notNl_of_not_mem hn), tw_stop _ (by decide : notNl nlc = false),
      List.append_nil]
  have hdw : (line ++ nlc :: rest).dropWhile notNl = nlc :: rest := by
    rw [dw_append notNl _ _ (notNl_of_not_mem hn)]
    exact dw_stop _ (by decide : notNl nlc = false)
  simp only [drainLoop, if_pos hmem, htw, hdw, List.tail_cons]

theorem drainLoop_fuel :
    ∀ (n : Nat) (buf : List Char) (f1 f2 : Nat),
    buf.length ≤ n → buf.length ≤ f1 → buf.length ≤ f2 →
    drainLoop f1 buf = drainLoop f2 buf := by
  intro n
  induction n with
  | zero =>
    intro buf f1 f2 hn _ _
    have : buf = [] := List.eq_nil_of_length_eq_zero (by omega)
    subst this
    rw [drainLoop_no_nl [] (by simp) f1, drainLoop_no_nl [] (by simp) f2]
  | succ m ih =>
    intro buf f1 f2 hn h1 h2
    by_cases hmem : nlc ∈ buf
    · obtain ⟨line, rest, hsplit, hline⟩ := split_at_nl buf hmem
      subst hsplit
      have hlen : (line ++ nlc :: rest).length = line.length + rest.length + 1 := by
        simp only [List.length_append, List.length_cons]
        omega
      obtain ⟨a, rfl⟩ : ∃ a, f1 = a + 1 := by
        cases f1 with
        | zero => omega
        | succ a => exact ⟨a, rfl⟩
      obtain ⟨b, rfl⟩ : ∃ b, f2 = b + 1 := by
        cases f2 with
        | zero => omega
        | succ b => exact ⟨b, rfl⟩
      rw [drainLoop_split line rest hline a, drainLoop_split line rest hline b]
      rw [ih rest a b (by omega) (by omega) (by omega)]
    · rw [drainLoop_no_nl buf hmem f1, drainLoop_no_nl buf hmem f2]

theorem drainBuf_no_nl (buf : List Char) (h : nlc ∉ buf) : drainBuf buf = ([], buf) :=
  drainLoop_no_nl buf h buf.length

theorem drainBuf_cons_split (line rest : List Char) (hn : nlc ∉ line) :
    drainBuf (line ++ nlc :: rest)
      = ((line :: (drainBuf rest).1), (drainBuf rest).2) := by
  have hL : (line ++ nlc :: rest).length = (line.length + rest.length) + 1 := by
    simp only [List.length_append, List.length_cons]
    omega
  rw [drainBuf, hL, drainLoop_split line rest hn (line.length + rest.length)]
  rw [drainLoop_fuel rest.length rest (line.length + rest.length) rest.length
    (by omega) (by omega) (by omega)]
  rfl

theorem drainBuf_append :
    ∀ (n : Nat) (a b : List Char), a.length ≤ n →
    drainBuf (a ++ b)
      = ((drainBuf a).1 ++ (drainBuf ((drainBuf a).2 ++ b)).1,
         (drainBuf ((drainBuf a).2 ++ b)).2) := by
  intro n
  induction n with
  | zero =>
    intro a b hn
    have : a = [] := List.eq_nil_of_length_eq_zero (by omega)
    subst this
    simp [drainBuf_no_nl [] (by simp)]
  | succ m ih =>
    intro a b hn
    by_cases hmem : nlc ∈ a
    · obtain ⟨line, rest, hsplit, hline⟩ := split_at_nl a hmem
      subst hsplit
      have hassoc : (line ++ nlc :: rest) ++ b = line ++ nlc :: (rest ++ b) := by
        simp
      have hlen : rest.length ≤ m := by
        have : (line ++ nlc :: rest).length = line.length + rest.length + 1 := by
          simp only [List.length_append, List.length_cons]
          omega
        omega
      rw [hassoc, drainBuf_cons_split line (rest ++ b) hline,
        drainBuf_cons_split line rest hline, ih rest b hlen]
      simp
    · rw [drainBuf_no_nl a hmem]
      simp

theorem drainBuf_single (line : List Char) (hn : nlc ∉ line) :
    drainBuf (line ++ [nlc]) = ([line], []) := by
  have : line ++ [nlc] = line ++ nlc :: [] := rfl
  rw [this, drainBuf_cons_split line [] hn]
  rfl

/-! ## Round trip of the message codec -/

theorem safe_pair {k : String} {v : JVal} (hk : SafeStr k) (hv : SafeVal v) :
    SafeStr (k, v).1 ∧ SafeVal (k, v).2 := ⟨hk, hv⟩

theorem msgObj_safe (m : Msg) (h : SafeMsg m) : SafeFields (msgObj m).fields := by
  cases m with
  | kp key =>
    intro kv hkv
    simp only [msgObj, List.mem_cons, List.not_mem_nil, or_false] at hkv
    rcases hkv with rfl | rfl
    · exact safe_pair (by decide) (by decide)
    · exact safe_pair (by decide) h
  | kr key =>
    intro kv hkv
    simp only [msgObj, List.mem_cons, List.not_mem_nil, or_false] at hkv
    rcases hkv with rfl | rfl
    · exact safe_pair (by decide) (by decide)
    · exact safe_pair (by decide) h
  | mm x y =>
    intro kv hkv
    simp only [msgObj, List.mem_cons, List.not_mem_nil, or_false] at hkv
    rcases hkv with rfl | rfl | rfl
    · exact safe_pair (by decide) (by decide)
    · exact safe_pair (by decide) (by trivial)
    · exact safe_pair (by decide) (by trivial)
  | mc x y b p =>
    intro kv hkv
    simp only [msgObj, List.mem_cons, List.not_mem_nil, or_false] at hkv
    rcases hkv with rfl | rfl | rfl | rfl | rfl
    · exact safe_pair (by decide) (by decide)
    · exact safe_pair (by decide) (by trivial)
    · exact safe_pair (by decide) (by trivial)
    · exact safe_pair (by decide) h
    · exact safe_pair (by decide) (by trivial)
  | ms x y dx dy =>
    intro kv hkv
    simp only [msgObj, List.mem_cons, List.not_mem_nil, or_false] at hkv
    rcases hkv with rfl | rfl | rfl | rfl | rfl
    · exact safe_pair (by decide) (by decide)
    · exact safe_pair (by decide) (by trivial)
    · exact safe_pair (by decide) (by trivial)
    · exact safe_pair (by decide) (by trivial)
    · exact safe_pair (by decide) (by trivial)
  | ctrl has =>
    intro kv hkv
    simp only [msgObj, List.mem_cons, List.not_mem_nil, or_false] at hkv
    rcases hkv with rfl | rfl
    · exact safe_pair (by decide) (by decide)
    · exact safe_pair (by decide) (by trivial)

theorem jsonToMsg_msgObj (m : Msg) : jsonToMsg (msgObj m) = some m := by
  cases m <;> rfl

theorem nl_not_mem_line (m : Msg) (h : SafeMsg m) :
    nlc ∉ renderObj (msgObj m) := by
  have := nl_not_mem_renderObj (msgObj m).fields (msgObj_safe m h)
  simpa using this

theorem decodeLine_render (m : Msg) (h : SafeMsg m) :
    decodeLine (renderObj (msgObj m)) = some m := by
  have hp : parseObj (renderObj (msgObj m) ++ []) = some (msgObj m, []) := by
    have := parseObj_render (msgObj m).fields [] (msgObj_safe m h)
    simpa using this
  rw [List.append_nil] at hp
  simp only [decodeLine, hp, jsonToMsg_msgObj]

theorem decode_encode (m : Msg) (h : SafeMsg m) :
    decodeMsg (encodeMsg m) = some m := by
  have hd : drainBuf (encodeMsg m) = ([renderObj (msgObj m)], []) :=
    drainBuf_single (renderObj (msgObj m)) (nl_not_mem_line m h)
  simp only [decodeMsg, hd, decodeLine_render m h]

/-! ## Claim C5: codec round trip -/

/-- Claim C5 (confirmed): for every wire message `m`, decoding the
encoding of `m` yields `m` again — `decode (encode m) = some m` —
where encode is JSON serialization plus a newline terminator
(`Link.send`) and decode splits on the newline and parses the JSON
record (`Link.recv_loop` with `json.loads` and the per-tag field
reads of the handlers).  String fields are assumed to consist of
printable non-escaped characters, for which the modelled `json.dumps`
output is exact. -/
theorem c5_codec_round_trip (m : Msg) (h : SafeMsg m) :
    decodeMsg (encodeMsg m) = some m :=
  decode_encode m h

theorem c5_codec_round_trip_witness :
    SafeMsg (Msg.kp "Key.space") ∧
    decodeMsg (encodeMsg (Msg.kp "Key.space")) = some (Msg.kp "Key.space") :=
  ⟨by decide, c5_codec_round_trip (Msg.kp "Key.space") (by decide)⟩

/-! ## Claim C4: partial-read reassembly -/

/-- Claim C4 (amended): for the newline-buffered receive loops of
`KVMSwitch.handle_communication` and `Link.recv_loop`, feeding a
valid encoded message split at any byte position `k` across two reads
yields exactly one complete line — equal to the line obtained from
the unsplit byte string — with nothing left in the buffer, and that
line decodes back to the message.  (As amended: the also-cited
`KVMClient.receive_commands` of `KVM.py` has no such buffering; see
the counterexample.) -/
theorem c4_split_reassembly (m : Msg) (k : Nat) (h : SafeMsg m)
    (hk : k ≤ (encodeMsg m).length) :
    two_reads m k = ([renderObj (msgObj m)], []) ∧
    drainBuf (encodeMsg m) = ([renderObj (msgObj m)], []) ∧
    decodeLine (renderObj (msgObj m)) = some m := by
  have ha : (encodeMsg m).take k ++ (encodeMsg m).drop k = encodeMsg m :=
    List.take_append_drop k (encodeMsg m)
  have hsingle : drainBuf (encodeMsg m) = ([renderObj (msgObj m)], []) := by
    simp only [encodeMsg]
    exact drainBuf_single (renderObj (msgObj m)) (nl_not_mem_line m h)
  have hcomp := drainBuf_append ((encodeMsg m).take k).length
    ((encodeMsg m).take k) ((encodeMsg m).drop k) le_rfl
  rw [ha] at hcomp
  refine ⟨?_, hsingle, decodeLine_render m h⟩
  show ((drainBuf ((encodeMsg m).take k)).1 ++
        (drainBuf ((drainBuf ((encodeMsg m).take k)).2 ++ (encodeMsg m).drop k)).1,
        (drainBuf ((drainBuf ((encodeMsg m).take k)).2 ++ (encodeMsg m).drop k)).2)
      = ([renderObj (msgObj m)], [])
  rw [← hcomp]
  exact hsingle

theorem c4_split_reassembly_witness :
    SafeMsg (Msg.mm 3 4) ∧ 5 ≤ (encodeMsg (Msg.mm 3 4)).length ∧
    (two_reads (Msg.mm 3 4) 5 = ([renderObj (msgObj (Msg.mm 3 4))], []) ∧
     drainBuf (encodeMsg (Msg.mm 3 4)) = ([renderObj (msgObj (Msg.mm 3 4))], []) ∧
     decodeLine (renderObj (msgObj (Msg.mm 3 4))) = some (Msg.mm 3 4)) :=
  ⟨by decide, by decide, c4_split_reassembly (Msg.mm 3 4) 5 (by decide) (by decide)⟩

/-- Claim C4, counterexample: `KVMClient.receive_commands` parses
each read chunk as a whole JSON document with no carry-over buffer,
so splitting a valid encoded record (here `KVMServer`'s
`return_to_server` record, sent without a newline) at byte 5 across
two reads yields zero decoded messages — the first parse fails and
ends the loop — while the unsplit chunk yields exactly one. -/
theorem c4_counterexample :
    Cli.recv_chunks [(renderObj ⟨[("type", JVal.str "return_to_server")]⟩).take 5,
        (renderObj ⟨[("type", JVal.str "return_to_server")]⟩).drop 5] = [] ∧
    Cli.recv_chunks [renderObj ⟨[("type", JVal.str "return_to_server")]⟩]
      = [⟨[("type", JVal.str "return_to_server")]⟩] := by
  constructor
  · rfl
  · rfl

/-! ## Claim C2: discovery beacon decode -/

/-- Claim C2 (code bug): the sender lays out the datagram as
7 magic bytes, the 4-byte id at offsets 7–10 and the port at 11–12,
but the listener slices `peer_id = r[8:12]` and
`tcp_port = r[12:14]` — offsets that assume an 8-byte magic.  For the
beacon of a peer with id `[1,2,3,4]` and port 50001 (bytes
`[195, 81]`), the listener records port `256 * 81 + 99 = 20835`
(the low port byte and the first token byte) and id `[2,3,4,195]`:
neither field the sender encoded. -/
theorem c2_beacon_decode_mismatch :
    Tiny.mkBeacon [1, 2, 3, 4] 50001
      = Tiny.MAGICB ++ [1, 2, 3, 4] ++ [195, 81] ++ Tiny.TOKENB ∧
    Tiny.listen_step 10 [9, 9, 9, 9] 11 (Tiny.mkBeacon [1, 2, 3, 4] 50001)
      = some (20835, [2, 3, 4, 195]) ∧
    ((20835 : Nat) == 50001) = false ∧
    (([2, 3, 4, 195] : List Nat) == [1, 2, 3, 4]) = false := by
  decide

/-! ## Claim C8: discovery listen-loop insertion condition -/

/-- Claim C8, counterexample: a beacon whose encoded peer id equals
this host's own id (`[5,6,7,8]`), arriving from an address other than
the host's own, is recorded into the peer table — the listener's
self-echo test requires `ip == own_ip and peer_id == own_id`, so an
own-id beacon from another address is not rejected, contrary to the
claim that a beacon with `peerId` equal to the own id is always
rejected. -/
theorem c8_counterexample :
    (Tiny.listen_step 10 [5, 6, 7, 8] 11 (Tiny.mkBeacon [5, 6, 7, 8] 50001)).isSome
      = true := by
  decide

/-- Claim C8 (amended): the listen loop records a peer entry for a
datagram exactly when the datagram is long enough, starts with the
magic prefix, ends with the token, and it is NOT the case that both
the source address equals the host's own address and the sliced
`r[8:12]` id equals the host's own id.  (As amended: the self-echo
test also requires the source address to match, and the id it
compares is the `r[8:12]` slice.) -/
theorem c8_listen_insert_condition (ownIp : Nat) (ownId : List Nat)
    (srcIp : Nat) (r : List Nat) :
    (Tiny.listen_step ownIp ownId srcIp r).isSome
      = (decide (Tiny.MAGICB.length + 6 + Tiny.TOKENB.length ≤ r.length)
          && Tiny.MAGICB.isPrefixOf r
          && Tiny.TOKENB.isSuffixOf r
          && !(decide (srcIp = ownIp ∧ Tiny.peerIdOf r = ownId))) := by
  unfold Tiny.listen_step
  split_ifs with h1 h2 h3 h4
  · have hd : decide (Tiny.MAGICB.length + 6 + Tiny.TOKENB.length ≤ r.length) = false :=
      decide_eq_false (by omega)
    simp [hd]
  · have hd : decide (srcIp = ownIp ∧ Tiny.peerIdOf r = ownId) = true :=
      decide_eq_true h3
    simp [hd]
  · have hd1 : decide (Tiny.MAGICB.length + 6 + Tiny.TOKENB.length ≤ r.length) = true :=
      decide_eq_true (by omega)
    have hd3 : decide (srcIp = ownIp ∧ Tiny.peerIdOf r = ownId) = false :=
      decide_eq_false h3
    simp [hd1, hd3, h2, h4]
  · have hb : Tiny.TOKENB.isSuffixOf r = false := by
      cases hs : Tiny.TOKENB.isSuffixOf r
      · rfl
      · exact absurd hs h4
    simp [hb]
  · have hb : Tiny.MAGICB.isPrefixOf r = false := by
      cases hs : Tiny.MAGICB.isPrefixOf r
      · rfl
      · exact absurd hs h2
    simp [hb]

/-! ## Claim C6: idempotent control release -/

/-- Claim C6 (confirmed): processing a `control_release` /
`return_to_server` message twice in succession leaves the state — and
hence the overlay and injection enablement derived from it —
identical to processing it once: in `KVMSwitch.process_message` the
`control_release` branch assigns the same values again (the overlay
having already been dropped), and in `KVMServer.handle_client` the
`return_to_server` branch re-assigns `current_screen = "server"` and
`active_client = None`. -/
theorem c6_release_idempotent :
    (∀ s : Sw.St, Sw.process_control_release (Sw.process_control_release s)
        = Sw.process_control_release s) ∧
    (∀ s : Sw.St,
      Sw.injection_enabled (Sw.process_control_release (Sw.process_control_release s))
        = Sw.injection_enabled (Sw.process_control_release s)) ∧
    (∀ t : Srv.St, Srv.process_return (Srv.process_return t) = Srv.process_return t) := by
  have h1 : ∀ s : Sw.St, Sw.process_control_release (Sw.process_control_release s)
      = Sw.process_control_release s := by
    intro s
    by_cases h : s.mode = "server" <;> simp [Sw.process_control_release, h]
  exact ⟨h1, fun s => by rw [h1 s], fun t => rfl⟩

/-! ## Claim C9: mouse button injection -/

/-- Claim C9, counterexample: a `mouse_click` naming the middle
button is injected as a right-button event, not a middle-button one:
`KVMClient.receive_commands` chooses `Button.left` only when the
lowered button string contains `left` and otherwise `Button.right`,
so `Button.middle` maps to right; `KVMSwitch.process_message` does
the same with an equality test on `left`. -/
theorem c9_counterexample :
    Cli.button_of "Button.middle" = Cli.MButton.right ∧
    Cli.mouse_click_inject "Button.middle" true
      = Cli.Inj.mousePress Cli.MButton.right ∧
    Sw.button_of_sw "middle" = Cli.MButton.right ∧
    (Cli.MButton.right == Cli.MButton.middle) = false := by
  decide

/-- Claim C9 (amended): a `mouse_click` is injected as the left
button exactly when its button name contains `left` (for `KVM.py`,
after lowering) or equals `left` (for `kvm.py`); every other name —
the middle button included — is injected as the right button, and the
middle button is never the one submitted to the provider. -/
theorem c9_button_mapping :
    Cli.button_of "Button.left" = Cli.MButton.left ∧
    Cli.button_of "Button.right" = Cli.MButton.right ∧
    Cli.button_of "Button.middle" = Cli.MButton.right ∧
    Sw.button_of_sw "left" = Cli.MButton.left ∧
    Sw.button_of_sw "right" = Cli.MButton.right ∧
    Sw.button_of_sw "middle" = Cli.MButton.right ∧
    (∀ bstr : String,
      Cli.button_of bstr = Cli.MButton.left ∨ Cli.button_of bstr = Cli.MButton.right) ∧
    (∀ bstr : String,
      Sw.button_of_sw bstr = Cli.MButton.left ∨ Sw.button_of_sw bstr = Cli.MButton.right) := by
  refine ⟨by decide, by decide, by decide, by decide, by decide, by decide, ?_, ?_⟩
  · intro bstr
    unfold Cli.button_of
    split
    · exact Or.inl rfl
    · exact Or.inr rfl
  · intro bstr
    unfold Sw.button_of_sw
    split
    · exact Or.inl rfl
    · exact Or.inr rfl

/-! ## Claim C10: key name handling on the injection target -/

/-- Claim C10, counterexample: the client's `key_map` holds fifteen
special names, not sixteen. -/
theorem c10_counterexample :
    Cli.key_map.length = 15 ∧ (Cli.key_map.length == 16) = false := by
  decide

/-- Claim C10 (amended): the key map holds fifteen special names, and
`handle_key` performs no provider call exactly when the key name is
not in the map and is not a single character; every mapped name and
every single-character name is injected. -/
theorem c10_key_drop :
    Cli.key_map.length = 15 ∧
    ∀ (ks : String) (b : Bool),
      (Cli.handle_key ks b = none ↔
        (Cli.lookupA ks Cli.key_map = none ∧ (ks.length == 1) = false)) := by
  refine ⟨rfl, ?_⟩
  intro ks b
  unfold Cli.handle_key
  cases h : Cli.lookupA ks Cli.key_map with
  | some k => simp
  | none =>
    by_cases hl : ks.length = 1
    · simp [hl]
    · simp [hl]

/-! ## Claim C1: disconnect handling and ControlState -/

theorem nodup_erase_self (c : Nat) :
    ∀ (l : List Nat), l.Nodup → c ∉ l.erase c := by
  intro l
  induction l with
  | nil => intro _ h; simp at h
  | cons a t ih =>
    intro hnd
    have h1 : a ∉ t := (List.nodup_cons.mp hnd).1
    have h2 : t.Nodup := (List.nodup_cons.mp hnd).2
    by_cases hac : a = c
    · rw [List.erase_cons, if_pos (by simp [hac])]
      exact fun hm => h1 (hac ▸ hm)
    · rw [List.erase_cons, if_neg (by simp [hac])]
      intro hm
      rcases List.mem_cons.mp hm with h3 | h3
      · exact hac h3.symm
      · exact ih h2 h3

/-- Claim C1, counterexample: with the right client (socket 7)
holding remote control, running the disconnect handling of
`KVMServer.handle_client` for that socket leaves
`current_screen = "right"` and `active_client = 7`: the state is not
reverted to local control and still references the dead session. -/
theorem c1_counterexample :
    (Srv.handle_client_disconnect c1state 7).current_screen = "right" ∧
    ((Srv.handle_client_disconnect c1state 7).current_screen == "server") = false ∧
    (Srv.handle_client_disconnect c1state 7).active_client = some 7 ∧
    ((Srv.handle_client_disconnect c1state 7).active_client == none) = false := by
  decide

/-- Claim C1 (amended): when the active client's channel closes or
its read fails, the disconnect handling removes the socket from
`clients` and `client_positions` — so `send_to_active_client` sends
nothing further to it — but `current_screen` and `active_client` are
left unchanged, still referencing the dead session; only a
`return_to_server` message resets them. -/
theorem c1_no_revert_on_disconnect (s : Srv.St) (c : Nat)
    (hnd : s.clients.Nodup) (hmem : c ∈ s.clients) (hac : s.active_client = some c) :
    (Srv.handle_client_disconnect s c).current_screen = s.current_screen ∧
    (Srv.handle_client_disconnect s c).active_client = some c ∧
    decide (c ∈ (Srv.handle_client_disconnect s c).clients) = false ∧
    (∀ p ∈ (Srv.handle_client_disconnect s c).client_positions, (p.1 == c) = false) ∧
    (∀ m : Srv.SMsg, Srv.send_to_active_client (Srv.handle_client_disconnect s c) m = []) ∧
    (Srv.process_return (Srv.handle_client_disconnect s c)).current_screen = "server" ∧
    (Srv.process_return (Srv.handle_client_disconnect s c)).active_client = none := by
  have hne : c ∉ s.clients.erase c := nodup_erase_self c s.clients hnd
  have hd : Srv.handle_client_disconnect s c
      = { s with clients := s.clients.erase c,
                 client_positions := s.client_positions.filter (fun p => !(p.1 == c)) } := by
    simp only [Srv.handle_client_disconnect, if_pos hmem]
  rw [hd]
  refine ⟨rfl, hac, decide_eq_false hne, ?_, ?_, rfl, rfl⟩
  · intro p hp
    have := (List.mem_filter.mp hp).2
    simpa using this
  · intro m
    simp only [Srv.send_to_active_client, hac]
    rw [if_neg hne]

theorem c1_no_revert_on_disconnect_witness :
    c1state.clients.Nodup ∧ 7 ∈ c1state.clients ∧ c1state.active_client = some 7 ∧
    ((Srv.handle_client_disconnect c1state 7).current_screen = c1state.current_screen ∧
     (Srv.handle_client_disconnect c1state 7).active_client = some 7 ∧
     decide (7 ∈ (Srv.handle_client_disconnect c1state 7).clients) = false ∧
     (∀ p ∈ (Srv.handle_client_disconnect c1state 7).client_positions, (p.1 == 7) = false) ∧
     (∀ m : Srv.SMsg,
        Srv.send_to_active_client (Srv.handle_client_disconnect c1state 7) m = []) ∧
     (Srv.process_return (Srv.handle_client_disconnect c1state 7)).current_screen
        = "server" ∧
     (Srv.process_return (Srv.handle_client_disconnect c1state 7)).active_client = none) :=
  ⟨by decide, by decide, rfl,
   c1_no_revert_on_disconnect c1state 7 (by decide) (by decide) rfl⟩

/-! ## Claim C3: rejection of a third connection -/

/-- Claim C3, counterexample: with both slots full, the reply the
server sends before closing the socket is the raw byte string
`ERROR:MAX_CLIENTS`, which is not a JSON record with a `status` field
of `REJECTED` — the rejection is not a `handshake_ack{REJECTED}`
record as the claim states. -/
theorem c3_counterexample :
    Srv.accept_step c3state 3 (some "left")
      = (c3state, [Srv.Out.sendRaw 3 "ERROR:MAX_CLIENTS", Srv.Out.close 3]) ∧
    specHsAckRejected "ERROR:MAX_CLIENTS" = false := by
  constructor
  · rfl
  · rfl

/-- Claim C3 (amended): every connection accepted while two clients
are already registered is answered with the fixed error reply
`ERROR:MAX_CLIENTS` and closed; the state — in particular the
`clients` list and the `client_positions` table — is unchanged, no
session is created, and no input-event message is ever sent to the
rejected socket. -/
theorem c3_reject_when_full (s : Srv.St) (n : Nat) (position? : Option String)
    (h : 2 ≤ s.clients.length) :
    Srv.accept_step s n position?
      = (s, [Srv.Out.sendRaw n "ERROR:MAX_CLIENTS", Srv.Out.close n]) ∧
    (Srv.accept_step s n position?).1.clients = s.clients ∧
    (Srv.accept_step s n position?).1.client_positions = s.client_positions ∧
    (∀ e : Srv.SMsg,
      decide (Srv.Out.send n e ∈ (Srv.accept_step s n position?).2) = false) := by
  have h1 : Srv.accept_step s n position?
      = (s, [Srv.Out.sendRaw n "ERROR:MAX_CLIENTS", Srv.Out.close n]) := by
    simp only [Srv.accept_step, if_pos h]
  refine ⟨h1, by rw [h1], by rw [h1], ?_⟩
  intro e
  apply decide_eq_false
  intro hmem
  rw [h1] at hmem
  simp at hmem

theorem c3_reject_when_full_witness :
    2 ≤ c3state.clients.length ∧
    (Srv.accept_step c3state 3 (some "left")
       = (c3state, [Srv.Out.sendRaw 3 "ERROR:MAX_CLIENTS", Srv.Out.close 3]) ∧
     (Srv.accept_step c3state 3 (some "left")).1.clients = c3state.clients ∧
     (Srv.accept_step c3state 3 (some "left")).1.client_positions
        = c3state.client_positions ∧
     (∀ e : Srv.SMsg,
       decide (Srv.Out.send 3 e ∈ (Srv.accept_step c3state 3 (some "left")).2) = false)) :=
  ⟨by decide, c3_reject_when_full c3state 3 (some "left") (by decide)⟩

/-! ## Claim C7: edge switch exactly once -/

/-- Claim C7 (confirmed): on a server in local control with a client
registered in the matching slot, a cursor move reaching the screen
boundary (`x >= screen_width - 1` for the right slot, `x <= 0` for
the left slot) switches exactly once: the state becomes remote
control of that slot's client and a single `switch` message carrying
the normalized `y` coordinate is sent; every subsequent move at the
same boundary value while already switched leaves the state unchanged
and is forwarded as a normalized `mouse_move`, with no further
`switch`. -/
theorem c7_edge_switch_once :
    (∀ (s : Srv.St) (x y : Int) (c : Nat),
      s.current_screen = "server" →
      s.client_positions.find? (fun p => p.2 == "right") = some (c, "right") →
      c ∈ s.clients →
      s.screen_width - 1 ≤ x →
      (Srv.on_move s x y).1.current_screen = "right" ∧
      (Srv.on_move s x y).1.active_client = some c ∧
      (Srv.on_move s x y).2
        = [Srv.Out.send c (Srv.SMsg.switch ((y : ℚ) / (s.screen_height : ℚ)))] ∧
      (∀ (x2 y2 : Int), s.screen_width - 1 ≤ x2 →
        Srv.on_move (Srv.on_move s x y).1 x2 y2
          = ((Srv.on_move s x y).1,
             [Srv.Out.send c (Srv.SMsg.mouse_move ((x2 : ℚ) / (s.screen_width : ℚ))
                ((y2 : ℚ) / (s.screen_height : ℚ)))]))) ∧
    (∀ (s : Srv.St) (x y : Int) (c : Nat),
      s.current_screen = "server" →
      s.client_positions.find? (fun p => p.2 == "left") = some (c, "left") →
      c ∈ s.clients →
      2 ≤ s.screen_width →
      x ≤ 0 →
      (Srv.on_move s x y).1.current_screen = "left" ∧
      (Srv.on_move s x y).1.active_client = some c ∧
      (Srv.on_move s x y).2
        = [Srv.Out.send c (Srv.SMsg.switch ((y : ℚ) / (s.screen_height : ℚ)))] ∧
      (∀ (x2 y2 : Int), x2 ≤ 0 →
        Srv.on_move (Srv.on_move s x y).1 x2 y2
          = ((Srv.on_move s x y).1,
             [Srv.Out.send c (Srv.SMsg.mouse_move ((x2 : ℚ) / (s.screen_width : ℚ))
                ((y2 : ℚ) / (s.screen_height : ℚ)))]))) := by
  constructor
  · intro s x y c h1 hf hc hx
    have h2 : Srv.on_move s x y
        = ({ s with current_screen := "right", active_client := some c },
           [Srv.Out.send c (Srv.SMsg.switch ((y : ℚ) / (s.screen_height : ℚ)))]) := by
      simp only [Srv.on_move, if_pos h1, if_pos hx, Srv.switch_to_client, hf,
        Srv.send_to_active_client]
      simp [hc]
    rw [h2]
    refine ⟨rfl, rfl, rfl, ?_⟩
    intro x2 y2 hx2
    have h3 : ¬(({ s with current_screen := "right", active_client := some c } : Srv.St).current_screen
        = "server") := by
      simp
    simp only [Srv.on_move, if_neg h3, Srv.send_to_active_client]
    simp [hc]
  · intro s x y c h1 hf hc hw hx
    have hnr : ¬(s.screen_width - 1 ≤ x) := by omega
    have h2 : Srv.on_move s x y
        = ({ s with current_screen := "left", active_client := some c },
           [Srv.Out.send c (Srv.SMsg.switch ((y : ℚ) / (s.screen_height : ℚ)))]) := by
      simp only [Srv.on_move, if_pos h1, if_neg hnr, if_pos hx, Srv.switch_to_client, hf,
        Srv.send_to_active_client]
      simp [hc]
    rw [h2]
    refine ⟨rfl, rfl, rfl, ?_⟩
    intro x2 y2 hx2
    have h3 : ¬(({ s with current_screen := "left", active_client := some c } : Srv.St).current_screen
        = "server") := by
      simp
    simp only [Srv.on_move, if_neg h3, Srv.send_to_active_client]
    simp [hc]

theorem c7_edge_switch_once_witness :
    c7state.current_screen = "server" ∧
    c7state.client_positions.find? (fun p => p.2 == "right") = some (4, "right") ∧
    4 ∈ c7state.clients ∧
    c7state.screen_width - 1 ≤ 1919 ∧
    ((Srv.on_move c7state 1919 540).1.current_screen = "right" ∧
     (Srv.on_move c7state 1919 540).1.active_client = some 4 ∧
     (Srv.on_move c7state 1919 540).2
       = [Srv.Out.send 4 (Srv.SMsg.switch
            (((540 : Int) : ℚ) / ((c7state.screen_height : Int) : ℚ)))] ∧
     Srv.on_move (Srv.on_move c7state 1919 540).1 1919 700
       = ((Srv.on_move c7state 1919 540).1,
          [Srv.Out.send 4 (Srv.SMsg.mouse_move
             (((1919 : Int) : ℚ) / ((c7state.screen_width : Int) : ℚ))
             (((700 : Int) : ℚ) / ((c7state.screen_height : Int) : ℚ)))])) := by
  have h := c7_edge_switch_once.1 c7state 1919 540 4 rfl (by decide) (by decide) (by decide)
  exact ⟨rfl, by decide, by decide, by decide,
    h.1, h.2.1, h.2.2.1, h.2.2.2 1919 700 (by decide)⟩
